import Mathlib

/-!
A verification development for the scalar reverse-mode autodiff engine in
`micrograd.py` (class `Value`).

Embedding choices:
* Python object identity is modelled by an arena: a `GraphState` is the list
  of all `Value` objects created so far, and a "reference to a Value" is an
  index into that list.  New objects are appended, mutation of a field is
  `List.set` at the object's index.
* Python `float` arithmetic is modelled by exact rationals `ℚ`; every scenario
  exercised by the claims uses values on which float arithmetic is exact.
  The one non-IEEE behaviour that matters — CPython raises `ZeroDivisionError`
  for `0.0 ** n` with `n < 0` — is modelled explicitly (`qpowZ`).
  Exponents of `__pow__` are modelled as integers (all exponents appearing in
  the program and the claims are integers; `math.exp`-based ops take the
  exponential map as an explicit function parameter `f`).
* The per-node `_backward` closures are defunctionalized into the inductive
  `BackRule`; each constructor stores exactly the data the corresponding
  closure captures (operand indices, the produced node's index, and for
  `tanh` the captured forward value `t`), and executing a rule reads the
  current state exactly where the closure reads object fields.
* Python exceptions (`ZeroDivisionError` from `0.0 ** -1`, the
  `AssertionError` from `__pow__`'s isinstance assert) are modelled with
  `Except PyErr`.
-/

namespace Micrograd

/-- Exceptions the engine can raise. -/
inductive PyErr where
  /-- CPython raises `ZeroDivisionError` for `0.0 ** k` with `k < 0`. -/
  | zeroDivision
  /-- Failure of `assert isinstance(other, (int, float))` in `__pow__`. -/
  | assertionError
deriving DecidableEq, Repr

/-- Defunctionalized `_backward` closures.  Each constructor records the node
indices the closure captured (`a`, `b` the operands, `out` the produced node)
plus any captured scalar. -/
inductive BackRule where
  /-- Placeholder `lambda: None` installed by `__init__`. -/
  | none
  /-- closure of `__add__`: `a.grad += 1*out.grad; b.grad += 1*out.grad`. -/
  | add (a b out : Nat)
  /-- closure of `__mul__`: `a.grad += b.data*out.grad; b.grad += a.data*out.grad`. -/
  | mul (a b out : Nat)
  /-- closure of `tanh`: `a.grad += (1 - t**2) * out.grad`, `t` captured. -/
  | tanh (a : Nat) (t : ℚ) (out : Nat)
  /-- closure of `exp`: `a.grad += out.data * out.grad`. -/
  | exp (a out : Nat)
  /-- closure of `__pow__`: `a.grad += k * a.data**(k-1) * out.grad`. -/
  | pow (a : Nat) (k : ℤ) (out : Nat)
deriving DecidableEq, Repr

/-- One `Value` object: fields `data`, `grad`, `_prev`, `_op`, `label`,
`_backward` of the Python class. -/
structure Value where
  data : ℚ
  grad : ℚ
  prev : List Nat
  op : String
  label : String
  rule : BackRule
deriving DecidableEq, Repr

instance : Inhabited Value := ⟨⟨0, 0, [], "", "", .none⟩⟩

/-- The arena of all `Value` objects created so far. -/
structure GraphState where
  nodes : List Value
deriving DecidableEq, Repr

/-- The object stored at index `i` (defaulting outside the arena; states built
through the API only ever dereference live indices). -/
def getNode (s : GraphState) (i : Nat) : Value := s.nodes.getD i default

def dataAt (s : GraphState) (i : Nat) : ℚ := (getNode s i).data

def gradAt (s : GraphState) (i : Nat) : ℚ := (getNode s i).grad

def prevOf (s : GraphState) (i : Nat) : List Nat := (getNode s i).prev

def opAt (s : GraphState) (i : Nat) : String := (getNode s i).op

def labelAt (s : GraphState) (i : Nat) : String := (getNode s i).label

def ruleOf (s : GraphState) (i : Nat) : BackRule := (getNode s i).rule

/-- Allocate a new object, returning the new state and the object's index. -/
def push (s : GraphState) (v : Value) : GraphState × Nat :=
  (⟨s.nodes ++ [v]⟩, s.nodes.length)

/-- Constructor call `Value(x)` — a leaf: `grad = 0`, empty `_prev`, `_op = ''`,
`_backward = lambda: None`. -/
def leaf (s : GraphState) (x : ℚ) (lab : String) : GraphState × Nat :=
  push s ⟨x, 0, [], "", lab, .none⟩

/-- Assignment `self.grad = g` (plain overwrite, as in the seed `self.grad = 1.0`). -/
def setGrad (s : GraphState) (i : Nat) (g : ℚ) : GraphState :=
  ⟨s.nodes.set i { getNode s i with grad := g }⟩

/-- Accumulation `self.grad += d` (read-modify-write, as in every gradient rule). -/
def addGrad (s : GraphState) (i : Nat) (d : ℚ) : GraphState :=
  setGrad s i (gradAt s i + d)

/-- An argument of a binary operator: either an existing `Value` object or a
raw scalar (which `other if isinstance(other, Value) else Value(other)`
wraps into a fresh leaf). -/
inductive Operand where
  | node (i : Nat)
  | const (x : ℚ)
deriving DecidableEq, Repr

/-- Coercion `other = other if isinstance(other, Value) else Value(other)`. -/
def coerce (s : GraphState) : Operand → GraphState × Nat
  | .node i => (s, i)
  | .const x => leaf s x ""

/-- Storage `self._prev = set(_children)`: Python stores the operand tuple in a set
keyed on object identity, so a repeated operand is kept once.  (Set iteration
order is unspecified in Python; the embedding fixes first-operand-first
order, which no claim depends on.) -/
def dedup2 (i j : Nat) : List Nat := if i = j then [i] else [i, j]

/-- Operator `__add__`: `out = Value(self.data + other.data, (self, other), '+')`
with the `+` gradient rule installed on `out`. -/
def add (s : GraphState) (i : Nat) (o : Operand) : GraphState × Nat :=
  match coerce s o with
  | (s1, j) =>
    push s1 ⟨dataAt s1 i + dataAt s1 j, 0, dedup2 i j, "+", "",
             .add i j s1.nodes.length⟩

/-- Operator `__mul__`: `out = Value(self.data * other.data, (self, other), '*')`
with the `*` gradient rule installed on `out`. -/
def mul (s : GraphState) (i : Nat) (o : Operand) : GraphState × Nat :=
  match coerce s o with
  | (s1, j) =>
    push s1 ⟨dataAt s1 i * dataAt s1 j, 0, dedup2 i j, "*", "",
             .mul i j s1.nodes.length⟩

/-- Operator `__neg__`: `self * -1`. -/
def neg (s : GraphState) (i : Nat) : GraphState × Nat :=
  mul s i (.const (-1))

/-- Operator `__sub__`: `self + (-other)`.  For a raw scalar the negation happens on
the scalar before `__add__` wraps it; for a `Value` it goes through
`__neg__` (a multiplication by `-1`). -/
def sub (s : GraphState) (i : Nat) (o : Operand) : GraphState × Nat :=
  match o with
  | .const x => add s i (.const (-x))
  | .node j =>
    match neg s j with
    | (s1, k) => add s1 i (.node k)

/-- Operator `__rmul__`: `self * other` (scalar-on-the-left multiplication). -/
def rmul (s : GraphState) (x : ℚ) (i : Nat) : GraphState × Nat :=
  mul s i (.const x)

/-- Method `tanh`, with `math.exp` supplied as the function parameter `f`:
`t = (exp(2x) - 1) / (exp(2x) + 1)`. -/
def tanh (f : ℚ → ℚ) (s : GraphState) (i : Nat) : GraphState × Nat :=
  push s ⟨(f (2 * dataAt s i) - 1) / (f (2 * dataAt s i) + 1), 0, [i], "tanh", "",
          .tanh i ((f (2 * dataAt s i) - 1) / (f (2 * dataAt s i) + 1)) s.nodes.length⟩

/-- Method `exp`, with `math.exp` supplied as the function parameter `f`. -/
def exp (f : ℚ → ℚ) (s : GraphState) (i : Nat) : GraphState × Nat :=
  push s ⟨f (dataAt s i), 0, [i], "exp", "", .exp i s.nodes.length⟩

/-- The exponent handed to `__pow__`: a numeric constant (int modelled) or —
the rejected case — another `Value` object. -/
inductive PowArg where
  | num (k : ℤ)
  | val (j : Nat)
deriving DecidableEq, Repr

/-- CPython `x ** k` for float `x`, integer `k`: raises `ZeroDivisionError`
when `x = 0 ∧ k < 0` (`0.0 cannot be raised to a negative power`), otherwise
the exact power (`x ** 0 == 1.0`, including `0.0 ** 0`). -/
def qpowZ (x : ℚ) (k : ℤ) : Except PyErr ℚ :=
  if x = 0 ∧ k < 0 then .error .zeroDivision else .ok (x ^ k)

/-- Operator `__pow__`: the statement `assert isinstance(other, (int, float))` rejects a `Value`
exponent before anything is computed or allocated; otherwise
`out = Value(self.data**other, (self,), f'**{other}')` with the power
gradient rule installed on `out`. -/
def pow (s : GraphState) (i : Nat) (e : PowArg) : Except PyErr (GraphState × Nat) :=
  match e with
  | .val _ => .error .assertionError
  | .num k => do
    let d ← qpowZ (dataAt s i) k
    .ok (push s ⟨d, 0, [i], "**" ++ toString k, "", .pow i k s.nodes.length⟩)

/-- Operator `__truediv__`: `self * other**-1`.  Python evaluates `other**-1` first:
for a raw scalar that is scalar exponentiation (then `__mul__` wraps the
result), for a `Value` it is `__pow__(-1)`. -/
def truediv (s : GraphState) (i : Nat) (o : Operand) : Except PyErr (GraphState × Nat) :=
  match o with
  | .const x => do
    let y ← qpowZ x (-1)
    .ok (mul s i (.const y))
  | .node j => do
    let r ← pow s j (.num (-1))
    .ok (mul r.1 i (.node r.2))

/-- Execute one stored `_backward` closure against the current state.  The
statement order inside each closure is kept (`self.grad` is updated before
`other.grad`), and every field read happens on the state current at that
point, exactly as the closures read object attributes. -/
def runRule (s : GraphState) (r : BackRule) : Except PyErr GraphState :=
  match r with
  | .none => .ok s
  | .add a b out =>
    .ok (addGrad (addGrad s a (1 * gradAt s out)) b
          (1 * gradAt (addGrad s a (1 * gradAt s out)) out))
  | .mul a b out =>
    .ok (addGrad (addGrad s a (dataAt s b * gradAt s out)) b
          (dataAt (addGrad s a (dataAt s b * gradAt s out)) a *
           gradAt (addGrad s a (dataAt s b * gradAt s out)) out))
  | .tanh a t out => .ok (addGrad s a ((1 - t ^ 2) * gradAt s out))
  | .exp a out => .ok (addGrad s a (dataAt s out * gradAt s out))
  | .pow a k out => do
    let d ← qpowZ (dataAt s a) (k - 1)
    .ok (addGrad s a ((k : ℚ) * d * gradAt s out))

/-- The node indices whose `grad` a rule writes. -/
def ruleTargets : BackRule → List Nat
  | .none => []
  | .add a b _ => [a, b]
  | .mul a b _ => [a, b]
  | .tanh a _ _ => [a]
  | .exp a _ => [a]
  | .pow a _ _ => [a]

/-- The mutable pair `(visited, topo)` of `backward`'s inner `build_topo`. -/
structure TopoAcc where
  visited : List Nat
  topo : List Nat
deriving DecidableEq, Repr

/-- Statement `visited.add(v)`. -/
def markVisited (v : Nat) (acc : TopoAcc) : TopoAcc :=
  ⟨v :: acc.visited, acc.topo⟩

/-- Statement `topo.append(v)`. -/
def pushTopo (v : Nat) (acc : TopoAcc) : TopoAcc :=
  ⟨acc.visited, acc.topo ++ [v]⟩

mutual

/-- Function `build_topo(v)`: if `v` is unvisited, mark it, recurse into its operands,
then append `v`.  The guard `c < v` on recursive calls is a termination
artifact of the embedding: on every state built through the API each operand
index is strictly below the index of the node that consumed it, so the guard
never skips anything there (the claim theorems carry that well-formedness as
the hypothesis `WF`). -/
def visitNode (s : GraphState) (v : Nat) (acc : TopoAcc) : TopoAcc :=
  if v ∈ acc.visited then acc
  else pushTopo v (visitChildren s (prevOf s v) v (markVisited v acc))
termination_by (v, 1, 0)

/-- Loop `for child in v._prev: build_topo(child)`. -/
def visitChildren (s : GraphState) (cs : List Nat) (v : Nat) (acc : TopoAcc) : TopoAcc :=
  match cs with
  | [] => acc
  | c :: rest =>
    visitChildren s rest v (if _h : c < v then visitNode s c acc else acc)
termination_by (v, 0, cs.length)

end

/-- The list `topo` after `build_topo(self)` starting from empty `visited`
and `topo`. -/
def buildTopo (s : GraphState) (root : Nat) : List Nat :=
  (visitNode s root ⟨[], []⟩).topo

/-- Method `backward()`: build the topological order, seed `self.grad = 1.0`
(an overwrite), then run each node's `_backward` in reversed topological
order. -/
def backward (s : GraphState) (root : Nat) : Except PyErr GraphState :=
  List.foldlM (fun st v => runRule st (ruleOf st v)) (setGrad s root 1)
    (buildTopo s root).reverse

/-- The `grad` of node `i` after `root.backward()` succeeds on `s`. -/
def gradAfter (s : GraphState) (root i : Nat) : Option ℚ :=
  match backward s root with
  | .ok t => some (gradAt t i)
  | .error _ => Option.none

/-- Reachability along operand edges (a node reaches itself and everything
its operands reach). -/
inductive Reaches (s : GraphState) : Nat → Nat → Prop where
  | refl (v : Nat) : Reaches s v v
  | step (v c w : Nat) : c ∈ prevOf s v → Reaches s c w → Reaches s v w

/-- Arena well-formedness: a node's operands were allocated before it.  Every
state built through the API satisfies this (operations only consume existing
objects). -/
def WF (s : GraphState) : Prop :=
  ∀ v < s.nodes.length, ∀ p ∈ prevOf s v, p < v

instance (s : GraphState) : Decidable (WF s) := by
  unfold WF; infer_instance

/-- Rule well-formedness: a node's stored gradient rule writes only into that
node's own operands.  Every state built through the API satisfies this (each
builder installs on `out` a rule whose targets are exactly `out`'s operands). -/
def WFRules (s : GraphState) : Prop :=
  ∀ v < s.nodes.length, ∀ t ∈ ruleTargets (ruleOf s v), t ∈ prevOf s v

instance (s : GraphState) : Decidable (WFRules s) := by
  unfold WFRules; infer_instance

/-- The invariant of `build_topo`'s accumulator: `topo` is duplicate-free,
inside `visited`, and every already-appended node was appended after its
(smaller-index) operands. -/
def TopoInv (s : GraphState) (acc : TopoAcc) : Prop :=
  acc.topo.Nodup ∧
  (∀ x ∈ acc.topo, x ∈ acc.visited) ∧
  (∀ b ∈ acc.topo, ∀ p ∈ prevOf s b, p < b →
    p ∈ acc.topo ∧ acc.topo.indexOf p < acc.topo.indexOf b)

/-- What one completed `build_topo` call changes: `visited` only grows,
`topo` is only appended to, and the set of in-progress nodes (visited but not
yet appended) is exactly restored. -/
def VisitFrame (acc r : TopoAcc) : Prop :=
  (∀ x ∈ acc.visited, x ∈ r.visited) ∧
  (∃ t, r.topo = acc.topo ++ t) ∧
  (∀ x, (x ∈ r.visited ∧ x ∉ r.topo) ↔ (x ∈ acc.visited ∧ x ∉ acc.topo))

/-- Two states with the same allocation skeleton: equal length and equal
per-node `data`, `_prev`, `_op`, `label`, `_backward`; only `grad` may
differ. -/
def sameSkeleton (s t : GraphState) : Prop :=
  t.nodes.length = s.nodes.length ∧
  ∀ j, dataAt t j = dataAt s j ∧ prevOf t j = prevOf s j ∧
    opAt t j = opAt s j ∧ labelAt t j = labelAt s j ∧ ruleOf t j = ruleOf s j

/-- Calling `backward()` a second time on the same root without resetting any
`grad`. -/
def backwardTwice (s : GraphState) (root : Nat) : Except PyErr GraphState := do
  let t ← backward s root
  backward t root

/-- Per-node `grad` after two unreset `backward()` passes succeed. -/
def gradAfterTwice (s : GraphState) (root i : Nat) : Option ℚ :=
  match backwardTwice s root with
  | .ok t => some (gradAt t i)
  | .error _ => Option.none

/-- The empty arena (no `Value` created yet). -/
def emptyG : GraphState := ⟨[]⟩

/-- Scenario `a = Value(3.0)` (index 0). -/
def sqA : GraphState × Nat := leaf emptyG 3 ""

/-- Scenario `c = a * a` (index 1): one object consumed twice. -/
def sqC : GraphState × Nat := mul sqA.1 sqA.2 (.node sqA.2)

/-- Scenario `a = Value(5.0)` (index 0). -/
def subA : GraphState × Nat := leaf emptyG 5 ""

/-- Scenario `b = Value(3.0)` (index 1). -/
def subB : GraphState × Nat := leaf subA.1 3 ""

/-- Scenario `c = a - b` (leaf `-1` at index 2, `b * -1` at index 3, the sum
at index 4). -/
def subC : GraphState × Nat := sub subB.1 subA.2 (.node subB.2)

/-- Chain scenario `a = Value(2.0)` (index 0). -/
def chA : GraphState × Nat := leaf emptyG 2 ""

/-- Chain scenario `b = a * 3` (leaf `3` at index 1, product at index 2). -/
def chB : GraphState × Nat := mul chA.1 chA.2 (.const 3)

/-- Chain scenario `c = b * 5` (leaf `5` at index 3, product at index 4). -/
def chC : GraphState × Nat := mul chB.1 chB.2 (.const 5)

/-- Scenario `a = Value(1.0)` (index 0), numerator for division by zero. -/
def dzA : GraphState × Nat := leaf emptyG 1 ""

/-- Scenario `b = Value(0.0)` (index 1), a zero denominator object. -/
def dzB : GraphState × Nat := leaf dzA.1 0 ""

/-- Parametric scenario `a = Value(x)` (index 0). -/
def pA (x : ℚ) : GraphState × Nat := leaf emptyG x ""

/-- Parametric scenario `b = Value(y)` (index 1). -/
def pB (x y : ℚ) : GraphState × Nat := leaf (pA x).1 y ""

/-- Parametric scenario `c = a * b` (index 2): every operand of the root is a
leaf. -/
def pC (x y : ℚ) : GraphState × Nat := mul (pB x y).1 (pA x).2 (.node (pB x y).2)

end Micrograd

namespace Micrograd

/-- Dereferencing outside the arena yields the default object. -/
theorem getNode_oob {s : GraphState} {i : Nat} (h : s.nodes.length ≤ i) :
    getNode s i = default := by
  simp [getNode, List.getD_eq_getElem?_getD, List.getElem?_eq_none h]

/-- Outside the arena there are no operand edges. -/
theorem prevOf_oob {s : GraphState} {i : Nat} (h : s.nodes.length ≤ i) :
    prevOf s i = [] := by
  simp [prevOf, getNode_oob h, default]

/-- Outside the arena the stored rule is the no-op placeholder. -/
theorem ruleOf_oob {s : GraphState} {i : Nat} (h : s.nodes.length ≤ i) :
    ruleOf s i = .none := by
  simp [ruleOf, getNode_oob h, default]

theorem length_setGrad (s : GraphState) (i : Nat) (g : ℚ) :
    (setGrad s i g).nodes.length = s.nodes.length := by
  simp [setGrad]

/-- Overwriting one object's `grad` leaves every other object untouched. -/
theorem getNode_setGrad_ne {s : GraphState} {i j : Nat} (g : ℚ) (h : j ≠ i) :
    getNode (setGrad s i g) j = getNode s j := by
  simp [setGrad, getNode, List.getD_eq_getElem?_getD,
    List.getElem?_set_ne (Ne.symm h)]

/-- Overwriting a live object's `grad` changes exactly that field. -/
theorem getNode_setGrad_self {s : GraphState} {i : Nat} (g : ℚ)
    (h : i < s.nodes.length) :
    getNode (setGrad s i g) i = { getNode s i with grad := g } := by
  simp [setGrad, getNode, List.getD_eq_getElem?_getD,
    List.getElem?_set_eq_of_lt _ h]

/-- Writing a dead index is a no-op (never happens through the API). -/
theorem setGrad_oob {s : GraphState} {i : Nat} (g : ℚ)
    (h : s.nodes.length ≤ i) : setGrad s i g = s := by
  simp [setGrad, List.set_eq_of_length_le h]

theorem sameSkeleton_refl (s : GraphState) : sameSkeleton s s := by
  exact ⟨rfl, fun j => ⟨rfl, rfl, rfl, rfl, rfl⟩⟩

theorem sameSkeleton_trans {s t u : GraphState}
    (h1 : sameSkeleton s t) (h2 : sameSkeleton t u) : sameSkeleton s u := by
  obtain ⟨hl1, hf1⟩ := h1
  obtain ⟨hl2, hf2⟩ := h2
  refine ⟨hl2.trans hl1, fun j => ?_⟩
  obtain ⟨d1, p1, o1, l1, r1⟩ := hf1 j
  obtain ⟨d2, p2, o2, l2, r2⟩ := hf2 j
  exact ⟨d2.trans d1, p2.trans p1, o2.trans o1, l2.trans l1, r2.trans r1⟩

/-- Grad mutation preserves the allocation skeleton. -/
theorem sameSkeleton_setGrad (s : GraphState) (i : Nat) (g : ℚ) :
    sameSkeleton s (setGrad s i g) := by
  refine ⟨length_setGrad s i g, fun j => ?_⟩
  by_cases hj : j = i
  · subst hj
    by_cases hi : j < s.nodes.length
    · simp [dataAt, prevOf, opAt, labelAt, ruleOf, getNode_setGrad_self g hi]
    · simp [setGrad_oob g (Nat.le_of_not_lt hi)]
  · simp [dataAt, prevOf, opAt, labelAt, ruleOf, getNode_setGrad_ne g hj]

theorem sameSkeleton_addGrad (s : GraphState) (i : Nat) (d : ℚ) :
    sameSkeleton s (addGrad s i d) :=
  sameSkeleton_setGrad s i (gradAt s i + d)

/-- Accumulating into one object's `grad` leaves every other `grad` alone. -/
theorem gradAt_addGrad_ne {s : GraphState} {i j : Nat} (d : ℚ) (h : j ≠ i) :
    gradAt (addGrad s i d) j = gradAt s j := by
  simp [gradAt, addGrad, getNode_setGrad_ne _ h]

/-- Executing a stored rule never allocates or frees objects and never
touches `data`, `_prev`, `_op`, `label` or `_backward`. -/
theorem runRule_skeleton {s t : GraphState} {r : BackRule}
    (h : runRule s r = .ok t) : sameSkeleton s t := by
  cases r with
  | none => cases h; exact sameSkeleton_refl s
  | add a b out =>
    cases h
    exact sameSkeleton_trans (sameSkeleton_addGrad ..) (sameSkeleton_addGrad ..)
  | mul a b out =>
    cases h
    exact sameSkeleton_trans (sameSkeleton_addGrad ..) (sameSkeleton_addGrad ..)
  | tanh a c out => cases h; exact sameSkeleton_addGrad ..
  | exp a out => cases h; exact sameSkeleton_addGrad ..
  | pow a k out =>
    simp only [runRule] at h
    cases hq : qpowZ (dataAt s a) (k - 1) with
    | ok d =>
      rw [hq] at h
      simp only [Bind.bind, Except.bind] at h
      cases h; exact sameSkeleton_addGrad ..
    | error e =>
      rw [hq] at h
      simp only [Bind.bind, Except.bind] at h
      exact Except.noConfusion h

/-- Executing a stored rule only writes the `grad` of the rule's targets. -/
theorem runRule_grad_frame {s t : GraphState} {r : BackRule}
    (h : runRule s r = .ok t) {j : Nat} (hj : j ∉ ruleTargets r) :
    gradAt t j = gradAt s j := by
  cases r with
  | none => cases h; rfl
  | add a b out =>
    simp only [ruleTargets, List.mem_cons, List.not_mem_nil, or_false] at hj
    push_neg at hj
    cases h
    rw [gradAt_addGrad_ne _ hj.2, gradAt_addGrad_ne _ hj.1]
  | mul a b out =>
    simp only [ruleTargets, List.mem_cons, List.not_mem_nil, or_false] at hj
    push_neg at hj
    cases h
    rw [gradAt_addGrad_ne _ hj.2, gradAt_addGrad_ne _ hj.1]
  | tanh a c out =>
    simp only [ruleTargets, List.mem_singleton] at hj
    cases h
    rw [gradAt_addGrad_ne _ hj]
  | exp a out =>
    simp only [ruleTargets, List.mem_singleton] at hj
    cases h
    rw [gradAt_addGrad_ne _ hj]
  | pow a k out =>
    simp only [ruleTargets, List.mem_singleton] at hj
    simp only [runRule] at h
    cases hq : qpowZ (dataAt s a) (k - 1) with
    | ok d =>
      rw [hq] at h
      simp only [Bind.bind, Except.bind] at h
      cases h; rw [gradAt_addGrad_ne _ hj]
    | error e =>
      rw [hq] at h
      simp only [Bind.bind, Except.bind] at h
      exact Except.noConfusion h

/-- Frame property of the driver loop `for node in reversed(topo):
node._backward()`: the skeleton is preserved, and a node's `grad` moves only
if some executed rule targets it. -/
theorem foldRules_frame (s0 : GraphState) :
    ∀ (l : List Nat) (st t : GraphState), sameSkeleton s0 st →
      List.foldlM (fun u v => runRule u (ruleOf u v)) st l = .ok t →
      sameSkeleton s0 t ∧
      ∀ j, (∀ v ∈ l, j ∉ ruleTargets (ruleOf s0 v)) → gradAt t j = gradAt st j := by
  intro l
  induction l with
  | nil =>
    intro st t hsk h
    simp only [List.foldlM_nil] at h
    cases h
    exact ⟨hsk, fun j _ => rfl⟩
  | cons v rest ih =>
    intro st t hsk h
    simp only [List.foldlM_cons] at h
    cases hrr : runRule st (ruleOf st v) with
    | error e => rw [hrr] at h; simp [Bind.bind, Except.bind] at h
    | ok st1 =>
      rw [hrr] at h
      simp only [Bind.bind, Except.bind] at h
      have hsk1 : sameSkeleton s0 st1 :=
        sameSkeleton_trans hsk (runRule_skeleton hrr)
      obtain ⟨hskt, hfr⟩ := ih st1 t hsk1 h
      refine ⟨hskt, fun j hj => ?_⟩
      have hrule : ruleOf st v = ruleOf s0 v := (hsk.2 v).2.2.2.2
      have h1 : gradAt st1 j = gradAt st j := by
        refine runRule_grad_frame hrr ?_
        rw [hrule]
        exact hj v (List.mem_cons_self v rest)
      rw [hfr j fun w hw => hj w (List.mem_cons_of_mem v hw), h1]

end Micrograd

namespace Micrograd

theorem visitFrame_refl (acc : TopoAcc) : VisitFrame acc acc :=
  ⟨fun _ h => h, ⟨[], (List.append_nil _).symm⟩, fun _ => Iff.rfl⟩

theorem visitFrame_trans {a b c : TopoAcc}
    (h1 : VisitFrame a b) (h2 : VisitFrame b c) : VisitFrame a c := by
  obtain ⟨v1, ⟨t1, ht1⟩, g1⟩ := h1
  obtain ⟨v2, ⟨t2, ht2⟩, g2⟩ := h2
  exact ⟨fun x hx => v2 x (v1 x hx),
    ⟨t1 ++ t2, by rw [ht2, ht1, List.append_assoc]⟩,
    fun x => (g2 x).trans (g1 x)⟩

theorem visitFrame_topo_mono {a b : TopoAcc} (h : VisitFrame a b) :
    ∀ x ∈ a.topo, x ∈ b.topo := by
  obtain ⟨-, ⟨t, ht⟩, -⟩ := h
  intro x hx
  rw [ht]
  exact List.mem_append_left _ hx

/-- Appending a finished node whose smaller operands are already in `topo`
preserves the accumulator invariant. -/
theorem topoInv_push {s : GraphState} {acc : TopoAcc} {v : Nat}
    (hI : TopoInv s acc) (hvnt : v ∉ acc.topo) (hvv : v ∈ acc.visited)
    (hchild : ∀ p ∈ prevOf s v, p < v → p ∈ acc.topo) :
    TopoInv s (pushTopo v acc) := by
  obtain ⟨hnd, hsub, hord⟩ := hI
  refine ⟨?_, ?_, ?_⟩
  · refine List.Nodup.append hnd (List.nodup_singleton v) ?_
    intro a ha hav
    rw [List.mem_singleton] at hav
    subst hav
    exact hvnt ha
  · intro x hx
    rcases List.mem_append.mp hx with h | h
    · exact hsub x h
    · rw [List.mem_singleton] at h
      subst h
      exact hvv
  · intro b hb p hp hpb
    rcases List.mem_append.mp hb with h | h
    · obtain ⟨hpt, hidx⟩ := hord b h p hp hpb
      refine ⟨List.mem_append_left _ hpt, ?_⟩
      show (acc.topo ++ [v]).indexOf p < (acc.topo ++ [v]).indexOf b
      rw [List.indexOf_append_of_mem hpt, List.indexOf_append_of_mem h]
      exact hidx
    · rw [List.mem_singleton] at h
      subst h
      have hpt : p ∈ acc.topo := hchild p hp hpb
      refine ⟨List.mem_append_left _ hpt, ?_⟩
      show (acc.topo ++ [b]).indexOf p < (acc.topo ++ [b]).indexOf b
      rw [List.indexOf_append_of_mem hpt, List.indexOf_append_of_not_mem hvnt,
        List.indexOf_cons_self]
      exact Nat.lt_of_lt_of_le (List.indexOf_lt_length.mpr hpt) (Nat.le_add_right _ _)

/-- Main specification of `build_topo`, by strong induction on the visited
index: the accumulator invariant is preserved, `visited`/`topo` only grow,
the in-progress set is restored, the visited node ends up appended, and every
new entry of `topo` is reachable from the entry point. -/
theorem visit_spec (s : GraphState) (v : Nat) :
    (∀ acc, TopoInv s acc → (∀ x, x ∈ acc.visited → x ∉ acc.topo → v < x) →
      TopoInv s (visitNode s v acc) ∧ VisitFrame acc (visitNode s v acc) ∧
      v ∈ (visitNode s v acc).topo ∧
      ∀ w ∈ (visitNode s v acc).topo, w ∈ acc.topo ∨ Reaches s v w) ∧
    (∀ cs acc, (∀ c ∈ cs, c ∈ prevOf s v) → TopoInv s acc →
      (∀ x, x ∈ acc.visited → x ∉ acc.topo → v ≤ x) →
      TopoInv s (visitChildren s cs v acc) ∧
      VisitFrame acc (visitChildren s cs v acc) ∧
      (∀ c ∈ cs, c < v → c ∈ (visitChildren s cs v acc).topo) ∧
      ∀ w ∈ (visitChildren s cs v acc).topo, w ∈ acc.topo ∨ Reaches s v w) := by
  induction v using Nat.strong_induction_on with
  | _ v ih =>
  have hVC : ∀ cs acc, (∀ c ∈ cs, c ∈ prevOf s v) → TopoInv s acc →
      (∀ x, x ∈ acc.visited → x ∉ acc.topo → v ≤ x) →
      TopoInv s (visitChildren s cs v acc) ∧
      VisitFrame acc (visitChildren s cs v acc) ∧
      (∀ c ∈ cs, c < v → c ∈ (visitChildren s cs v acc).topo) ∧
      ∀ w ∈ (visitChildren s cs v acc).topo, w ∈ acc.topo ∨ Reaches s v w := by
    intro cs
    induction cs with
    | nil =>
      intro acc _ hInv _
      simp only [visitChildren]
      exact ⟨hInv, visitFrame_refl acc, by simp, fun w hw => Or.inl hw⟩
    | cons c rest ihrest =>
      intro acc hcs hInv hgray
      simp only [visitChildren]
      by_cases hcv : c < v
      · rw [dif_pos hcv]
        obtain ⟨hI1, hF1, hvin1, hr1⟩ :=
          (ih c hcv).1 acc hInv
            (fun x hx hnx => lt_of_lt_of_le hcv (hgray x hx hnx))
        obtain ⟨hI2, hF2, hmem2, hr2⟩ :=
          ihrest (visitNode s c acc)
            (fun d hd => hcs d (List.mem_cons_of_mem c hd)) hI1
            (fun x hx hnx => by
              have hg := (hF1.2.2 x).mp ⟨hx, hnx⟩
              exact hgray x hg.1 hg.2)
        refine ⟨hI2, visitFrame_trans hF1 hF2, ?_, ?_⟩
        · intro d hd hdv
          rcases List.mem_cons.mp hd with h | h
          · subst h
            exact visitFrame_topo_mono hF2 d hvin1
          · exact hmem2 d h hdv
        · intro w hw
          rcases hr2 w hw with h | h
          · rcases hr1 w h with h' | h'
            · exact Or.inl h'
            · exact Or.inr (Reaches.step v c w (hcs c (List.mem_cons_self c rest)) h')
          · exact Or.inr h
      · rw [dif_neg hcv]
        obtain ⟨hI2, hF2, hmem2, hr2⟩ :=
          ihrest acc (fun d hd => hcs d (List.mem_cons_of_mem c hd)) hInv hgray
        refine ⟨hI2, hF2, ?_, hr2⟩
        intro d hd hdv
        rcases List.mem_cons.mp hd with h | h
        · subst h
          exact absurd hdv hcv
        · exact hmem2 d h hdv
  refine ⟨?_, hVC⟩
  intro acc hInv hgray
  by_cases hv : v ∈ acc.visited
  · simp only [visitNode, if_pos hv]
    have hvt : v ∈ acc.topo := by
      by_contra hnt
      exact lt_irrefl v (hgray v hv hnt)
    exact ⟨hInv, visitFrame_refl acc, hvt, fun w hw => Or.inl hw⟩
  · simp only [visitNode, if_neg hv]
    have hInv1 : TopoInv s (markVisited v acc) := by
      obtain ⟨hnd, hsub, hord⟩ := hInv
      exact ⟨hnd, fun x hx => List.mem_cons_of_mem v (hsub x hx), hord⟩
    have hgray1 : ∀ x, x ∈ (markVisited v acc).visited →
        x ∉ (markVisited v acc).topo → v ≤ x := by
      intro x hx hnx
      rcases List.mem_cons.mp hx with h | h
      · exact le_of_eq h.symm
      · exact le_of_lt (hgray x h hnx)
    obtain ⟨hI2, hF2, hmem2, hr2⟩ :=
      hVC (prevOf s v) (markVisited v acc) (fun c hc => hc) hInv1 hgray1
    have hvv2 : v ∈ (visitChildren s (prevOf s v) v (markVisited v acc)).visited :=
      hF2.1 v (List.mem_cons_self v acc.visited)
    have hvnt2 : v ∉ (visitChildren s (prevOf s v) v (markVisited v acc)).topo := by
      intro hvt
      have hrhs : v ∈ (markVisited v acc).visited ∧ v ∉ (markVisited v acc).topo :=
        ⟨List.mem_cons_self v acc.visited, fun hvt0 => hv (hInv.2.1 v hvt0)⟩
      exact ((hF2.2.2 v).mpr hrhs).2 hvt
    refine ⟨topoInv_push hI2 hvnt2 hvv2 (fun p hp hpv => hmem2 p hp hpv), ?_, ?_, ?_⟩
    · -- frame from acc to the pushed accumulator
      obtain ⟨hvis2, ⟨t2, ht2⟩, hg2⟩ := hF2
      refine ⟨?_, ?_, ?_⟩
      · intro x hx
        exact hvis2 x (List.mem_cons_of_mem v hx)
      · exact ⟨t2 ++ [v], by
          show (visitChildren s (prevOf s v) v (markVisited v acc)).topo ++ [v] =
            acc.topo ++ (t2 ++ [v])
          rw [ht2]
          show (markVisited v acc).topo ++ t2 ++ [v] = acc.topo ++ (t2 ++ [v])
          simp [markVisited]⟩
      · intro x
        constructor
        · rintro ⟨hxv, hxnt⟩
          have hxnt' : x ∉ (visitChildren s (prevOf s v) v (markVisited v acc)).topo :=
            fun hmem => hxnt (List.mem_append_left _ hmem)
          have hxne : x ≠ v := by
            intro hxe
            subst hxe
            exact hxnt (List.mem_append_right _ (List.mem_singleton_self x))
          have hg := (hg2 x).mp ⟨hxv, hxnt'⟩
          rcases List.mem_cons.mp hg.1 with h | h
          · exact absurd h hxne
          · exact ⟨h, hg.2⟩
        · rintro ⟨hxv, hxnt⟩
          have hxne : x ≠ v := fun hxe => hv (hxe ▸ hxv)
          have hg := (hg2 x).mpr ⟨List.mem_cons_of_mem v hxv, hxnt⟩
          refine ⟨hg.1, fun hmem => ?_⟩
          rcases List.mem_append.mp hmem with h | h
          · exact hg.2 h
          · rw [List.mem_singleton] at h
            exact hxne h
    · exact List.mem_append_right _ (List.mem_singleton_self v)
    · intro w hw
      rcases List.mem_append.mp hw with h | h
      · rcases hr2 w h with h' | h'
        · exact Or.inl h'
        · exact Or.inr h'
      · rw [List.mem_singleton] at h
        subst h
        exact Or.inr (Reaches.refl w)

end Micrograd

namespace Micrograd

/-- Under arena well-formedness, operand edges point strictly downward. -/
theorem WF.prev_lt {s : GraphState} (h : WF s) {v p : Nat}
    (hp : p ∈ prevOf s v) : p < v := by
  by_cases hv : v < s.nodes.length
  · exact h v hv p hp
  · rw [prevOf_oob (Nat.le_of_not_lt hv)] at hp
    exact absurd hp (List.not_mem_nil p)

/-- Reachable nodes never exceed the start index (edges point downward). -/
theorem Reaches.le {s : GraphState} (hWF : WF s) {u w : Nat}
    (h : Reaches s u w) : w ≤ u := by
  induction h with
  | refl x => exact Nat.le_refl x
  | step x c w hc _ ihw => exact Nat.le_trans ihw (Nat.le_of_lt (hWF.prev_lt hc))

/-- Reachability extends through one more operand edge at the far end. -/
theorem Reaches.snoc {s : GraphState} {u v p : Nat} (h : Reaches s u v) :
    p ∈ prevOf s v → Reaches s u p := by
  induction h with
  | refl x => exact fun hp => Reaches.step x p p hp (Reaches.refl p)
  | step x c w hc _ ih => exact fun hp => Reaches.step x c p hc (ih hp)

/-- Combined facts about the list `topo` computed by `backward()`: it is
duplicate-free, contains the root, contains only nodes reachable from the
root, and lists every already-listed node after its smaller operands. -/
theorem buildTopo_posts (s : GraphState) (root : Nat) :
    (buildTopo s root).Nodup ∧ root ∈ buildTopo s root ∧
    (∀ w ∈ buildTopo s root, Reaches s root w) ∧
    (∀ b ∈ buildTopo s root, ∀ p ∈ prevOf s b, p < b →
      p ∈ buildTopo s root ∧
      (buildTopo s root).indexOf p < (buildTopo s root).indexOf b) := by
  have h := (visit_spec s root).1 ⟨[], []⟩
    ⟨List.nodup_nil, by simp, by simp⟩ (by simp)
  obtain ⟨hI, _, hmem, hr⟩ := h
  refine ⟨hI.1, hmem, ?_, hI.2.2⟩
  intro w hw
  rcases hr w hw with h | h
  · exact absurd h (List.not_mem_nil w)
  · exact h

/-- The computed order is closed under following operand edges backward. -/
theorem buildTopo_closed (s : GraphState) (root : Nat) (hWF : WF s)
    {u w : Nat} (h : Reaches s u w) :
    u ∈ buildTopo s root → w ∈ buildTopo s root := by
  induction h with
  | refl x => exact id
  | step x c w hc _ ih =>
    intro hx
    exact ih (((buildTopo_posts s root).2.2.2 x hx c hc (hWF.prev_lt hc)).1)

/-- Membership in the computed order is exactly reachability from the root. -/
theorem mem_buildTopo_iff (s : GraphState) (root : Nat) (hWF : WF s) (w : Nat) :
    w ∈ buildTopo s root ↔ Reaches s root w := by
  constructor
  · exact fun hw => (buildTopo_posts s root).2.2.1 w hw
  · exact fun hr => buildTopo_closed s root hWF hr (buildTopo_posts s root).2.1

end Micrograd

namespace Micrograd

theorem push_nodes (s : GraphState) (v : Value) :
    (push s v).1.nodes = s.nodes ++ [v] := rfl

/-- Dereferencing a freshly allocated index yields the pushed object. -/
theorem getNode_push_self (s : GraphState) (v : Value) :
    getNode (push s v).1 (push s v).2 = v := by
  simp [push, getNode, List.getD_eq_getElem?_getD, List.getElem?_concat_length]

theorem prevOf_push_self (s : GraphState) (v : Value) :
    prevOf (push s v).1 (push s v).2 = v.prev := by
  rw [prevOf, getNode_push_self]

theorem mem_dedup2 {p i j : Nat} : p ∈ dedup2 i j ↔ p = i ∨ p = j := by
  unfold dedup2
  split
  · next h => subst h; simp
  · simp

theorem dedup2_nodup (i j : Nat) : (dedup2 i j).Nodup := by
  unfold dedup2
  split
  · simp
  · next h => simp [h]

theorem dedup2_ne_nil (i j : Nat) : dedup2 i j ≠ [] := by
  unfold dedup2
  split <;> simp

/-- C5: calling the power operation with an exponent that is itself a Node is
rejected immediately at graph-construction time: the
`assert isinstance(other, (int, float))` fires before any output Node is
created, so `pow` returns an error and produces no new state — the graph the
caller holds is untouched. -/
theorem pow_rejects_value_exponent :
    ∀ (s : GraphState) (i j : Nat), pow s i (.val j) = .error .assertionError :=
  fun _ _ _ => rfl

/-- C4 counterexample: dividing `Value(1.0)` by the Node `Value(0.0)` — and
dividing by the raw scalar `0` — raises `ZeroDivisionError` (CPython rejects
`0.0 ** -1` inside `__truediv__`), so division by zero does fail with an
error instead of propagating a non-finite IEEE-754 value as the claim
states. -/
theorem div_by_zero_raises_cex :
    truediv dzB.1 dzA.2 (.node dzB.2) = .error .zeroDivision ∧
    truediv dzA.1 dzA.2 (.const 0) = .error .zeroDivision := by
  exact ⟨rfl, rfl⟩

/-- C4 amended: dividing a Node by a Node or scalar whose data is zero fails
immediately at graph-construction time with `ZeroDivisionError` (Python
evaluates `other ** -1` first, and CPython raises for a zero base instead of
returning an IEEE-754 infinity); no output Node and no non-finite value is
produced. -/
theorem div_by_zero_raises :
    (∀ (s : GraphState) (i j : Nat), dataAt s j = 0 →
      truediv s i (.node j) = .error .zeroDivision) ∧
    (∀ (s : GraphState) (i : Nat), truediv s i (.const 0) = .error .zeroDivision) := by
  constructor
  · intro s i j h
    simp [truediv, pow, qpowZ, h, Bind.bind, Except.bind]
  · intro s i
    simp [truediv, qpowZ, Bind.bind, Except.bind]

theorem div_by_zero_raises_witness :
    truediv dzB.1 dzA.2 (.node dzB.2) = .error .zeroDivision :=
  div_by_zero_raises.1 dzB.1 dzA.2 dzB.2 (by decide)

/-- C9 counterexample: `c = a * a` consumes the operand `a` twice, yet `c`'s
operand collection — a Python set keyed on object identity — holds a single
entry, so the collection is not "one entry per consumed operand". -/
theorem operands_dedup_cex :
    prevOf sqC.1 sqC.2 = [sqA.2] ∧ (prevOf sqC.1 sqC.2).length ≠ 2 := by
  exact ⟨by decide, by decide⟩

/-- C9 amended: every Node's operand collection holds exactly the distinct
predecessor Nodes consumed to compute its `data` — deduplicated by object
identity (a Node consumed twice appears once) and without any guaranteed
order, since it is a Python set — and it is empty exactly for leaf Nodes
constructed from a raw scalar (every operation output records at least one
operand). -/
theorem operands_distinct_predecessors :
    (∀ (s : GraphState) (x : ℚ) (lab : String),
      prevOf (leaf s x lab).1 (leaf s x lab).2 = []) ∧
    (∀ (s : GraphState) (i j : Nat),
      (∀ p, p ∈ prevOf (add s i (.node j)).1 (add s i (.node j)).2 ↔
        (p = i ∨ p = j)) ∧
      (prevOf (add s i (.node j)).1 (add s i (.node j)).2).Nodup ∧
      prevOf (add s i (.node j)).1 (add s i (.node j)).2 ≠ []) ∧
    (∀ (s : GraphState) (i j : Nat),
      (∀ p, p ∈ prevOf (mul s i (.node j)).1 (mul s i (.node j)).2 ↔
        (p = i ∨ p = j)) ∧
      (prevOf (mul s i (.node j)).1 (mul s i (.node j)).2).Nodup ∧
      prevOf (mul s i (.node j)).1 (mul s i (.node j)).2 ≠ []) ∧
    (∀ (s : GraphState) (i : Nat) (k : ℤ) (s' : GraphState) (m : Nat),
      pow s i (.num k) = .ok (s', m) → prevOf s' m = [i]) ∧
    (∀ (f : ℚ → ℚ) (s : GraphState) (i : Nat),
      prevOf (exp f s i).1 (exp f s i).2 = [i]) ∧
    (∀ (f : ℚ → ℚ) (s : GraphState) (i : Nat),
      prevOf (tanh f s i).1 (tanh f s i).2 = [i]) := by
  refine ⟨?_, ?_, ?_, ?_, ?_, ?_⟩
  · intro s x lab
    exact prevOf_push_self s _
  · intro s i j
    have hp : prevOf (add s i (.node j)).1 (add s i (.node j)).2 = dedup2 i j := by
      simp only [add, coerce]
      exact prevOf_push_self s _
    rw [hp]
    exact ⟨fun p => mem_dedup2, dedup2_nodup i j, dedup2_ne_nil i j⟩
  · intro s i j
    have hp : prevOf (mul s i (.node j)).1 (mul s i (.node j)).2 = dedup2 i j := by
      simp only [mul, coerce]
      exact prevOf_push_self s _
    rw [hp]
    exact ⟨fun p => mem_dedup2, dedup2_nodup i j, dedup2_ne_nil i j⟩
  · intro s i k s' m h
    simp only [pow] at h
    cases hq : qpowZ (dataAt s i) k with
    | ok d =>
      rw [hq] at h
      simp only [Bind.bind, Except.bind] at h
      injection h with h'
      cases h'
      exact prevOf_push_self s _
    | error e =>
      rw [hq] at h
      simp only [Bind.bind, Except.bind] at h
      exact Except.noConfusion h
  · intro f s i
    exact prevOf_push_self s _
  · intro f s i
    exact prevOf_push_self s _

theorem operands_distinct_predecessors_witness :
    prevOf ((pow sqA.1 sqA.2 (.num 3)).toOption.getD (emptyG, 0)).1
      ((pow sqA.1 sqA.2 (.num 3)).toOption.getD (emptyG, 0)).2 = [sqA.2] := by
  refine operands_distinct_predecessors.2.2.2.1 sqA.1 sqA.2 3
    ((pow sqA.1 sqA.2 (.num 3)).toOption.getD (emptyG, 0)).1
    ((pow sqA.1 sqA.2 (.num 3)).toOption.getD (emptyG, 0)).2 rfl

/-- C2: with `a = Value(3.0)` and `c = a * a`, after `c.backward()` the
shared leaf has accumulated both contributions: `a.grad == 6.0`, which is
`2 * a.data`, and not `3.0`. -/
theorem shared_operand_accumulates :
    gradAfter sqC.1 sqC.2 sqA.2 = some 6 ∧
    gradAfter sqC.1 sqC.2 sqA.2 = some (2 * dataAt sqC.1 sqA.2) ∧
    gradAfter sqC.1 sqC.2 sqA.2 ≠ some 3 := by
  refine ⟨?_, ?_, ?_⟩ <;>
  · simp [gradAfter, backward, buildTopo, visitNode, visitChildren, sqC, sqA,
      emptyG, mul, leaf, push, coerce, dedup2, prevOf, getNode, markVisited,
      pushTopo, setGrad, addGrad, gradAt, dataAt, ruleOf, runRule, List.foldlM,
      Bind.bind, Except.bind, Pure.pure, Except.pure, List.getD, Option.getD]
    try norm_num

/-- C7: subtraction is derived — `a - b` builds the leaf `-1`, the product
`b * -1` (op tag `*`) and the sum `a + (b * -1)` (op tag `+`) — and on
`a = Value(5.0)`, `b = Value(3.0)`, `c = a - b`: `c.data == 2.0`, and after
`c.backward()`, `a.grad == 1.0` and `b.grad == -1.0`. -/
theorem sub_is_derived_add_neg :
    dataAt subC.1 subC.2 = 2 ∧
    opAt subC.1 subC.2 = "+" ∧
    opAt subC.1 3 = "*" ∧
    dataAt subC.1 2 = -1 ∧
    gradAfter subC.1 subC.2 subA.2 = some 1 ∧
    gradAfter subC.1 subC.2 subB.2 = some (-1) := by
  refine ⟨?_, ?_, ?_, ?_, ?_, ?_⟩ <;>
  · simp [gradAfter, backward, buildTopo, visitNode, visitChildren, subC, subB,
      subA, emptyG, sub, neg, add, mul, leaf, push, coerce, dedup2, prevOf,
      getNode, markVisited, pushTopo, setGrad, addGrad, gradAt, dataAt, opAt,
      ruleOf, runRule, List.foldlM, Bind.bind, Except.bind, Pure.pure,
      Except.pure, List.getD, Option.getD]
    try norm_num

/-- C6 counterexample: on the chain `a = Value(2.0); b = a * 3; c = b * 5`,
one `backward()` pass gives `a.grad = 15`, but a second pass without
resetting gives `a.grad = 45 = 3 × 15` — not twice the single-pass value. -/
theorem second_backward_not_twice_cex :
    gradAfter chC.1 chC.2 chA.2 = some 15 ∧
    gradAfterTwice chC.1 chC.2 chA.2 = some 45 ∧
    gradAfterTwice chC.1 chC.2 chA.2 ≠ some (2 * 15) := by
  refine ⟨?_, ?_, ?_⟩ <;>
  · simp [gradAfter, gradAfterTwice, backwardTwice, backward, buildTopo,
      visitNode, visitChildren, chC, chB, chA, emptyG, mul, leaf, push, coerce,
      dedup2, prevOf, getNode, markVisited, pushTopo, setGrad, addGrad, gradAt,
      dataAt, ruleOf, runRule, List.foldlM, Bind.bind, Except.bind, Pure.pure,
      Except.pure, List.getD, Option.getD]
    try norm_num

/-- C6 amended: a second `backward()` on the same unreset root does not reset
anything — previously accumulated grads are retained and the new pass adds on
top.  When every operand of the root is a leaf each leaf's grad becomes
exactly twice its single-pass value, but in deeper graphs the contamination
compounds further: on a two-level chain the leaf reaches three times its
single-pass value. -/
theorem second_backward_accumulates :
    (∀ x y : ℚ, gradAfter (pC x y).1 (pC x y).2 (pA x).2 = some y ∧
      gradAfterTwice (pC x y).1 (pC x y).2 (pA x).2 = some (2 * y)) ∧
    gradAfter chC.1 chC.2 chA.2 = some 15 ∧
    gradAfterTwice chC.1 chC.2 chA.2 = some (3 * 15) := by
  refine ⟨fun x y => ⟨?_, ?_⟩, ?_, ?_⟩ <;>
  · simp [gradAfter, gradAfterTwice, backwardTwice, backward, buildTopo,
      visitNode, visitChildren, pC, pB, pA, chC, chB, chA, emptyG, mul, leaf,
      push, coerce, dedup2, prevOf, getNode, markVisited, pushTopo, setGrad,
      addGrad, gradAt, dataAt, ruleOf, runRule, List.foldlM, Bind.bind,
      Except.bind, Pure.pure, Except.pure, List.getD, Option.getD]
    try ring
    try norm_num

end Micrograd

namespace Micrograd

/-- C1: for every `backward()` call on a well-formed graph, the internally
computed order `topo` contains every node reachable from the root via operand
edges exactly once, every operand of a listed node appears strictly earlier
in the order than that node, and consequently the driver — which executes the
gradient rule of each entry of the reversed order once — runs each reachable
node's `_backward` exactly once per pass, however many consumers share that
node. -/
theorem backward_topo_exactly_once (s : GraphState) (root : Nat) (hWF : WF s) :
    (buildTopo s root).Nodup ∧
    (∀ v, v ∈ buildTopo s root ↔ Reaches s root v) ∧
    (∀ b ∈ buildTopo s root, ∀ p ∈ prevOf s b,
      p ∈ buildTopo s root ∧
      (buildTopo s root).indexOf p < (buildTopo s root).indexOf b) ∧
    (∀ v, Reaches s root v → ((buildTopo s root).reverse).count v = 1) := by
  obtain ⟨hnd, hroot, hsound, hord⟩ := buildTopo_posts s root
  refine ⟨hnd, fun v => mem_buildTopo_iff s root hWF v, ?_, ?_⟩
  · intro b hb p hp
    exact hord b hb p hp (hWF.prev_lt hp)
  · intro v hv
    rw [List.count_reverse]
    exact List.count_eq_one_of_mem hnd ((mem_buildTopo_iff s root hWF v).mpr hv)

theorem backward_topo_exactly_once_witness :
    (buildTopo sqC.1 sqC.2).Nodup ∧
    (∀ v, v ∈ buildTopo sqC.1 sqC.2 ↔ Reaches sqC.1 sqC.2 v) ∧
    (∀ b ∈ buildTopo sqC.1 sqC.2, ∀ p ∈ prevOf sqC.1 b,
      p ∈ buildTopo sqC.1 sqC.2 ∧
      (buildTopo sqC.1 sqC.2).indexOf p < (buildTopo sqC.1 sqC.2).indexOf b) ∧
    (∀ v, Reaches sqC.1 sqC.2 v → ((buildTopo sqC.1 sqC.2).reverse).count v = 1) :=
  backward_topo_exactly_once sqC.1 sqC.2 (by decide)

/-- C3: immediately after `backward()` returns on any live root, the root's
own `grad` is exactly `1.0` whatever it held before the call — the seed
`self.grad = 1.0` is a plain overwrite, and no executed rule can write back
into the root, because every executed node is reachable from the root (hence
has index at most the root's) and rules write only into their node's
operands, whose indices are strictly smaller. -/
theorem backward_root_grad_one (s : GraphState) (root : Nat) (s' : GraphState)
    (hWF : WF s) (hR : WFRules s) (hroot : root < s.nodes.length)
    (h : backward s root = .ok s') : gradAt s' root = 1 := by
  unfold backward at h
  obtain ⟨hsk, hfr⟩ := foldRules_frame s ((buildTopo s root).reverse)
    (setGrad s root 1) s' (sameSkeleton_setGrad s root 1) h
  have hpres : gradAt s' root = gradAt (setGrad s root 1) root := by
    refine hfr root ?_
    intro v hv hmem
    rw [List.mem_reverse] at hv
    have hreach := (buildTopo_posts s root).2.2.1 v hv
    have hvle : v ≤ root := Reaches.le hWF hreach
    have hvlen : v < s.nodes.length := Nat.lt_of_le_of_lt hvle hroot
    have hprev : root ∈ prevOf s v := hR v hvlen root hmem
    exact Nat.lt_irrefl root (Nat.lt_of_lt_of_le (hWF.prev_lt hprev) hvle)
  rw [hpres]
  simp [gradAt, getNode_setGrad_self 1 hroot]

theorem backward_root_grad_one_witness :
    gradAt ((backward subC.1 subC.2).toOption.getD emptyG) subC.2 = 1 :=
  backward_root_grad_one subC.1 subC.2
    ((backward subC.1 subC.2).toOption.getD emptyG)
    (by decide) (by decide) (by decide)
    (by simp [backward, buildTopo, visitNode, visitChildren, subC, subB, subA,
      emptyG, sub, neg, add, mul, leaf, push, coerce, dedup2, prevOf, getNode,
      markVisited, pushTopo, setGrad, addGrad, gradAt, dataAt, ruleOf, runRule,
      List.foldlM, Bind.bind, Except.bind, Pure.pure, Except.pure, List.getD,
      Option.getD, Except.toOption])

theorem nodes_extend_trans {a b c : GraphState}
    (h1 : ∃ t, b.nodes = a.nodes ++ t) (h2 : ∃ u, c.nodes = b.nodes ++ u) :
    ∃ w, c.nodes = a.nodes ++ w := by
  obtain ⟨t, ht⟩ := h1
  obtain ⟨u, hu⟩ := h2
  exact ⟨t ++ u, by rw [hu, ht, List.append_assoc]⟩

theorem add_appends_only (s : GraphState) (i : Nat) (o : Operand) :
    ∃ t, (add s i o).1.nodes = s.nodes ++ t := by
  cases o with
  | node j => exact ⟨[_], rfl⟩
  | const x =>
    refine nodes_extend_trans
      (⟨[_], rfl⟩ : ∃ t, (leaf s x "").1.nodes = s.nodes ++ t) ?_
    exact ⟨[_], rfl⟩

theorem mul_appends_only (s : GraphState) (i : Nat) (o : Operand) :
    ∃ t, (mul s i o).1.nodes = s.nodes ++ t := by
  cases o with
  | node j => exact ⟨[_], rfl⟩
  | const x =>
    refine nodes_extend_trans
      (⟨[_], rfl⟩ : ∃ t, (leaf s x "").1.nodes = s.nodes ++ t) ?_
    exact ⟨[_], rfl⟩

/-- Helper: a successful `__pow__` only appends to the arena. -/
theorem pow_appends_only {s : GraphState} {i : Nat} {e : PowArg} {s' : GraphState}
    {m : Nat} (h : pow s i e = .ok (s', m)) : ∃ t, s'.nodes = s.nodes ++ t := by
  cases e with
  | val j => exact Except.noConfusion h
  | num k =>
    simp only [pow] at h
    cases hq : qpowZ (dataAt s i) k with
    | ok d =>
      rw [hq] at h
      simp only [Bind.bind, Except.bind] at h
      injection h with h'
      cases h'
      exact ⟨[_], rfl⟩
    | error e2 =>
      rw [hq] at h
      simp only [Bind.bind, Except.bind] at h
      exact Except.noConfusion h

/-- C8: no public operation mutates the `data` of an existing Node.  Every
operation builder only appends freshly created objects to the arena, leaving
every existing entry — `data` included — unchanged; and a successful
`backward()` neither allocates nor changes any node's `data`, operand
collection, op tag, label or stored rule: it mutates only `grad` fields, and
only of nodes reachable from the root. -/
theorem ops_mutate_only_new_nodes_and_grads :
    (∀ (s : GraphState) (x : ℚ) (lab : String),
      ∃ t, (leaf s x lab).1.nodes = s.nodes ++ t) ∧
    (∀ (s : GraphState) (i : Nat) (o : Operand),
      ∃ t, (add s i o).1.nodes = s.nodes ++ t) ∧
    (∀ (s : GraphState) (i : Nat) (o : Operand),
      ∃ t, (mul s i o).1.nodes = s.nodes ++ t) ∧
    (∀ (s : GraphState) (i : Nat), ∃ t, (neg s i).1.nodes = s.nodes ++ t) ∧
    (∀ (s : GraphState) (i : Nat) (o : Operand),
      ∃ t, (sub s i o).1.nodes = s.nodes ++ t) ∧
    (∀ (s : GraphState) (x : ℚ) (i : Nat),
      ∃ t, (rmul s x i).1.nodes = s.nodes ++ t) ∧
    (∀ (f : ℚ → ℚ) (s : GraphState) (i : Nat),
      ∃ t, (exp f s i).1.nodes = s.nodes ++ t) ∧
    (∀ (f : ℚ → ℚ) (s : GraphState) (i : Nat),
      ∃ t, (tanh f s i).1.nodes = s.nodes ++ t) ∧
    (∀ (s : GraphState) (i : Nat) (e : PowArg) (s' : GraphState) (m : Nat),
      pow s i e = .ok (s', m) → ∃ t, s'.nodes = s.nodes ++ t) ∧
    (∀ (s : GraphState) (i : Nat) (o : Operand) (s' : GraphState) (m : Nat),
      truediv s i o = .ok (s', m) → ∃ t, s'.nodes = s.nodes ++ t) ∧
    (∀ (s : GraphState) (root : Nat) (s' : GraphState), WF s → WFRules s →
      backward s root = .ok s' →
      s'.nodes.length = s.nodes.length ∧
      (∀ j, dataAt s' j = dataAt s j ∧ prevOf s' j = prevOf s j ∧
        opAt s' j = opAt s j ∧ labelAt s' j = labelAt s j ∧
        ruleOf s' j = ruleOf s j) ∧
      (∀ j, ¬ Reaches s root j → gradAt s' j = gradAt s j)) := by
  refine ⟨?_, add_appends_only, mul_appends_only, ?_, ?_, ?_, ?_, ?_, ?_, ?_, ?_⟩
  · intro s x lab
    exact ⟨[_], rfl⟩
  · intro s i
    exact mul_appends_only s i (.const (-1))
  · intro s i o
    cases o with
    | const x => exact add_appends_only s i (.const (-x))
    | node j =>
      exact nodes_extend_trans (mul_appends_only s j (.const (-1)))
        (add_appends_only (mul s j (.const (-1))).1 i (.node (mul s j (.const (-1))).2))
  · intro s x i
    exact mul_appends_only s i (.const x)
  · intro f s i
    exact ⟨[_], rfl⟩
  · intro f s i
    exact ⟨[_], rfl⟩
  · intro s i e s' m h
    exact pow_appends_only h
  · intro s i o s' m h
    cases o with
    | const x =>
      simp only [truediv] at h
      cases hq : qpowZ x (-1) with
      | ok y =>
        rw [hq] at h
        simp only [Bind.bind, Except.bind] at h
        injection h with h'
        cases h'
        exact mul_appends_only s i (.const y)
      | error e =>
        rw [hq] at h
        simp only [Bind.bind, Except.bind] at h
        exact Except.noConfusion h
    | node j =>
      simp only [truediv] at h
      cases hq : pow s j (.num (-1)) with
      | ok r =>
        rw [hq] at h
        simp only [Bind.bind, Except.bind] at h
        injection h with h'
        cases h'
        refine nodes_extend_trans ?_ (mul_appends_only r.1 i (.node r.2))
        exact pow_appends_only (show pow s j (.num (-1)) = .ok (r.1, r.2) by rw [hq])
      | error e =>
        rw [hq] at h
        simp only [Bind.bind, Except.bind] at h
        exact Except.noConfusion h
  · intro s root s' hWF hR h
    unfold backward at h
    obtain ⟨hsk, hfr⟩ := foldRules_frame s ((buildTopo s root).reverse)
      (setGrad s root 1) s' (sameSkeleton_setGrad s root 1) h
    refine ⟨hsk.1, hsk.2, ?_⟩
    intro j hjr
    have hjroot : j ≠ root := by
      intro he
      exact hjr (by rw [he]; exact Reaches.refl root)
    have h1 : gradAt s' j = gradAt (setGrad s root 1) j := by
      refine hfr j ?_
      intro v hv hmem
      rw [List.mem_reverse] at hv
      have hreach := (buildTopo_posts s root).2.2.1 v hv
      by_cases hvlen : v < s.nodes.length
      · exact hjr (Reaches.snoc hreach (hR v hvlen j hmem))
      · rw [ruleOf_oob (Nat.le_of_not_lt hvlen)] at hmem
        simp [ruleTargets] at hmem
    rw [h1]
    simp [gradAt, getNode_setGrad_ne 1 hjroot]

end Micrograd

namespace Micrograd

theorem ops_mutate_only_new_nodes_and_grads_witness :
    dataAt ((backward subC.1 subC.2).toOption.getD emptyG) 0 = dataAt subC.1 0 ∧
    prevOf ((backward subC.1 subC.2).toOption.getD emptyG) 0 = prevOf subC.1 0 := by
  have h := ops_mutate_only_new_nodes_and_grads.2.2.2.2.2.2.2.2.2.2 subC.1 subC.2
    ((backward subC.1 subC.2).toOption.getD emptyG)
    (by decide) (by decide)
    (by simp [backward, buildTopo, visitNode, visitChildren, subC, subB, subA,
      emptyG, sub, neg, add, mul, leaf, push, coerce, dedup2, prevOf, getNode,
      markVisited, pushTopo, setGrad, addGrad, gradAt, dataAt, ruleOf, runRule,
      List.foldlM, Bind.bind, Except.bind, Pure.pure, Except.pure, List.getD,
      Option.getD, Except.toOption])
  exact ⟨(h.2.1 0).1, (h.2.1 0).2.1⟩

/-- C10: calling `backward()` on a freshly constructed leaf succeeds — the
topological order is just the leaf itself, whose `_backward` is still the
`lambda: None` placeholder installed by `__init__` — so the pass sets that
leaf's `grad` to exactly `1.0` and changes nothing else: the result state is
literally the input state with the single `grad` overwritten, every other
object is untouched, and the leaf's `data` keeps its constructed value. -/
theorem backward_on_fresh_leaf (s : GraphState) (x : ℚ) (lab : String)
    (j : Nat) (hj : j ≠ (leaf s x lab).2) :
    backward (leaf s x lab).1 (leaf s x lab).2 =
      .ok (setGrad (leaf s x lab).1 (leaf s x lab).2 1) ∧
    gradAfter (leaf s x lab).1 (leaf s x lab).2 (leaf s x lab).2 = some 1 ∧
    dataAt (setGrad (leaf s x lab).1 (leaf s x lab).2 1) (leaf s x lab).2 = x ∧
    getNode (setGrad (leaf s x lab).1 (leaf s x lab).2 1) j =
      getNode (leaf s x lab).1 j ∧
    ruleOf (leaf s x lab).1 (leaf s x lab).2 = BackRule.none := by
  have hprev : prevOf (leaf s x lab).1 (leaf s x lab).2 = [] :=
    prevOf_push_self s _
  have hlen : (leaf s x lab).2 < (leaf s x lab).1.nodes.length := by
    simp [leaf, push]
  have hnode : getNode (leaf s x lab).1 (leaf s x lab).2 =
      ⟨x, 0, [], "", lab, .none⟩ :=
    getNode_push_self s _
  have htopo : buildTopo (leaf s x lab).1 (leaf s x lab).2 = [(leaf s x lab).2] := by
    simp [buildTopo, visitNode, visitChildren, hprev, markVisited, pushTopo]
  have hrule1 : ruleOf (setGrad (leaf s x lab).1 (leaf s x lab).2 1)
      (leaf s x lab).2 = BackRule.none := by
    rw [ruleOf, getNode_setGrad_self 1 hlen, hnode]
  have hback : backward (leaf s x lab).1 (leaf s x lab).2 =
      .ok (setGrad (leaf s x lab).1 (leaf s x lab).2 1) := by
    unfold backward
    rw [htopo]
    simp [List.foldlM, hrule1, runRule, Bind.bind, Except.bind,
      Pure.pure, Except.pure]
  refine ⟨hback, ?_, ?_, getNode_setGrad_ne 1 hj, ?_⟩
  · simp only [gradAfter, hback]
    rw [gradAt, getNode_setGrad_self 1 hlen]
  · rw [dataAt, getNode_setGrad_self 1 hlen, hnode]
  · rw [ruleOf, hnode]

theorem backward_on_fresh_leaf_witness :
    backward (leaf sqA.1 7 "w").1 (leaf sqA.1 7 "w").2 =
      .ok (setGrad (leaf sqA.1 7 "w").1 (leaf sqA.1 7 "w").2 1) ∧
    gradAfter (leaf sqA.1 7 "w").1 (leaf sqA.1 7 "w").2 (leaf sqA.1 7 "w").2 =
      some 1 ∧
    dataAt (setGrad (leaf sqA.1 7 "w").1 (leaf sqA.1 7 "w").2 1)
      (leaf sqA.1 7 "w").2 = 7 ∧
    getNode (setGrad (leaf sqA.1 7 "w").1 (leaf sqA.1 7 "w").2 1) 0 =
      getNode (leaf sqA.1 7 "w").1 0 ∧
    ruleOf (leaf sqA.1 7 "w").1 (leaf sqA.1 7 "w").2 = BackRule.none :=
  backward_on_fresh_leaf sqA.1 7 "w" 0 (by decide)

end Micrograd
